import Mathlib

/-
Verification of the adaptor-signature core of sig4sats-script
(src/index.ts, src/utils.ts).

Modelling choices, fixed once for the whole file:

The program works in the secp256k1 group through the noble-curves
library.  That group is cyclic of prime order

  n = 0xFFFFFFFFFFFFFFFFFFFFFFFFFFFFFFFEBAAEDCE6AF48A03BBFD25E8CD0364141

with cofactor 1, so the map sending a point to its discrete logarithm
with respect to the base point G is a group isomorphism onto (ZMod n, +).
We embed points by their discrete logarithms: the point type is ZMod n,
the base point G corresponds to 1, point addition to addition, point
negation to negation, and scalar multiplication P.multiply(c) to
(c : ZMod n) * P.  Scalar arithmetic performed by the program with
JavaScript BigInt values mod n is embedded as ZMod n (or Nat / Int where
the program works with raw byte values).

The y-parity bit of a point is not a function of the discrete logarithm
that we can compute, so it is a parameter of the embedding: an oracle
odd : ZMod n → Bool.  The single property of the real parity bit that
the program logic relies on is the reflection law

  P ≠ 0 → odd (-P) = !odd P,

which holds on secp256k1 because the group order is odd, hence no
affine point has y = 0 (a point with y = 0 would have order 2).
Theorems take the reflection law as a hypothesis, so they hold in
particular for the true secp256k1 parity function; witnesses
instantiate the oracle with a concrete function satisfying the law
(Nat-parity of the representative, a valid choice since n is odd).

Serializing a point to its 32-byte x-coordinate and lifting it back
with lift_x yields the even-y point with the same x, i.e. P itself if
P has even y and -P otherwise.  The composite serialize/lift_x is
embedded as liftEven below.

The BIP340 tagged hash (SHA-256) is an external library call; it is
embedded as an oracle H taking the hash inputs used by the program
(adaptor nonce point R_a as transmitted, x-only public key as
transmitted, message digest) and returning the 32-byte digest read as
a big-endian natural number.  Both the generator and the verifier call
the oracle on the same inputs, exactly as both call taggedHash on the
same bytes.
-/

/-- Group order of secp256k1, secp.CURVE.n in the source. -/
def n : ℕ := 0xFFFFFFFFFFFFFFFFFFFFFFFFFFFFFFFEBAAEDCE6AF48A03BBFD25E8CD0364141

instance : NeZero n := ⟨by decide⟩

/-- Points of the secp256k1 group, embedded by their discrete logarithm. -/
abbrev Pt : Type := ZMod n

/-- Base point, secp.ProjectivePoint.BASE; its discrete logarithm is 1. -/
def G : Pt := 1

/-- Composite of x-only serialization and schnorr.utils.lift_x: the even-y
representative of \x7bP, -P\x7d, selected through the parity oracle o. -/
def liftEven (o : Pt → Bool) (P : Pt) : Pt := if o P then -P else P

/-- Concrete parity oracle used by witnesses: parity of the canonical
representative.  It satisfies the reflection law because n is odd. -/
def oddParity (P : Pt) : Bool := P.val % 2 == 1

/-- One iteration of the nonce-generation do/while body,
src/index.ts lines 131-144: draw r_p (the byte value d of
schnorr.utils.randomPrivateKey()), compute R_p = r_p * G, negate both
(negateScalar on the bytes, point negation on R_p) if R_p has odd y,
and form R_a = R_p + T. -/
def nonceAttempt (o : Pt → Bool) (T : Pt) (d : ℕ) : ℕ × Pt × Pt :=
  let R₀ : Pt := (d : Pt) * G
  let rR : ℕ × Pt := if o R₀ then ((n - d) % n, -R₀) else (d, R₀)
  (rR.1, rR.2, rR.2 + T)

/-- Nonce-generation loop, src/index.ts lines 132-144: repeat
nonceAttempt with fresh draws until R_a has even y.  The source loop is
unbounded; fuel counts how many attempts we are willing to unfold, and
none means the loop is still running after that many attempts (the
source has no abort path).  i indexes the random draw stream. -/
def nonceLoop (o : Pt → Bool) (T : Pt) (draws : ℕ → ℕ) : ℕ → ℕ → Option (ℕ × Pt × Pt)
  | _, 0 => none
  | i, fuel + 1 =>
    if o (nonceAttempt o T (draws i)).2.2 then nonceLoop o T draws (i + 1) fuel
    else some (nonceAttempt o T (draws i))

/-- Adaptor record \x7bs_a, R_p_x, R_a_x\x7d, src/index.ts lines 124-127.
The two point components stand for the transmitted 32-byte
x-coordinates of the (even-y) points R_p and R_a. -/
structure AdaptorRec where
  s_a : ZMod n
  R_p : Pt
  R_a : Pt
deriving DecidableEq

/-- Core of adaptor generation, src/index.ts lines 146-174, given the
nonce-loop result (r, R_p, R_a): hash the Cashu challenge c_cashu over
(R_a_x, P_p, m) through the oracle H, reduce it mod n (line 159),
negate it if the payer public point k_p * G has odd y (lines 164-167),
and form s_a = (r + c * k) mod n (line 170). -/
def generateAdaptorCore (o : Pt → Bool) (H : Pt → Pt → ℕ → ℕ) (k : ℕ) (m : ℕ)
    (r : ℕ) (Rp Ra : Pt) : AdaptorRec :=
  let P : Pt := liftEven o ((k : Pt) * G)
  let c₀ : ℕ := H Ra P m % n
  let c : ℕ := if o ((k : Pt) * G) then n - c₀ else c₀
  { s_a := (r : ZMod n) + (c : ZMod n) * (k : ZMod n), R_p := Rp, R_a := Ra }

/-- Adaptor generation for one proof, src/index.ts lines 128-181:
run the nonce loop, then the core computation.  none propagates a
nonce loop that has not exited within the given fuel. -/
def generateAdaptor (o : Pt → Bool) (H : Pt → Pt → ℕ → ℕ) (k : ℕ) (T : Pt)
    (m : ℕ) (draws : ℕ → ℕ) (fuel : ℕ) : Option AdaptorRec :=
  (nonceLoop o T draws 0 fuel).map fun a => generateAdaptorCore o H k m a.1 a.2.1 a.2.2

/-- Challenge value stored by the verifier, src/index.ts lines 215-231:
the tagged hash over (R_a_x, P_p, sha256(proof.secret)) read as a
BigInt, with no reduction mod n. -/
def verifierChallenge (H : Pt → Pt → ℕ → ℕ) (Ra P : Pt) (m : ℕ) : ℕ := H Ra P m

/-- Challenge value used by the generator, src/index.ts lines 152-159:
the same tagged hash, reduced mod secp.CURVE.n. -/
def generatorChallenge (H : Pt → Pt → ℕ → ℕ) (Ra P : Pt) (m : ℕ) : ℕ := H Ra P m % n

/-- Verification of one adaptor record, src/index.ts lines 233-255:
with c the verifier's (unreduced) challenge, lift R_p_x, and accept if
s_a * G equals lift(R_p_x) + c * lift(P_p) or
lift(R_p_x) + (n - c) * lift(P_p).  P is the already-lifted even-y
payer public key (line 241 lifts the transmitted x-only bytes). -/
def verifyAdaptorRec (o : Pt → Bool) (H : Pt → Pt → ℕ → ℕ) (rec : AdaptorRec)
    (P : Pt) (m : ℕ) : Bool :=
  let c : ℕ := verifierChallenge H rec.R_a P m
  let Rp : Pt := liftEven o rec.R_p
  let left : Pt := rec.s_a * G
  let rightEven : Pt := Rp + (c : ZMod n) * P
  let rightOdd : Pt := Rp + ((n - c : ℕ) : ZMod n) * P
  left == rightEven || left == rightOdd

/-- Batch adaptor verification flag, src/index.ts lines 235-255: iterate
over the records (paired with the per-proof message digest
sha256(proof.secret)) and latch the flag to false on any failing
record.  P is the lifted payer public key. -/
def areAdaptorsValid (o : Pt → Bool) (H : Pt → Pt → ℕ → ℕ)
    (rs : List (AdaptorRec × ℕ)) (P : Pt) : Bool :=
  rs.foldl (fun acc rm => if !verifyAdaptorRec o H rm.1 P rm.2 then false else acc) true

/-- Completion of one adaptor scalar, src/index.ts line 270:
s_c = (s_a + t) % n.  Both operands are non-negative, so Int emod
agrees with the JavaScript BigInt remainder. -/
def completeScalar (s_a t : ℤ) : ℤ := (s_a + t) % n

/-- Completion loop, src/index.ts lines 267-285: for every record in
the adaptors map, compute s_c and assemble the Cashu signature
(R_a_x, s_c).  The source runs this loop unconditionally after the
verification step; no guard consults the areAdaptorsValid flag. -/
def completeAdaptors (rs : List (AdaptorRec × ℕ)) (t : ℕ) : List (Pt × ℤ) :=
  rs.map fun rm => (rm.1.R_a, completeScalar rm.1.s_a.val t)

/-- Signer Step 4 pipeline, src/index.ts lines 233-285, as executed by
the source: compute the batch verification flag (a failure only prints
an error message), then compute the completed signatures for all
records.  The completions component does not depend on the flag. -/
def signerStep (o : Pt → Bool) (H : Pt → Pt → ℕ → ℕ)
    (rs : List (AdaptorRec × ℕ)) (P : Pt) (t : ℕ) : Bool × List (Pt × ℤ) :=
  (areAdaptorsValid o H rs P, completeAdaptors rs t)

/-- Extraction, src/index.ts lines 334-338:
extractedSecret = (s_c - s_a + n) % n.  For canonical inputs
(0 ≤ s_c, s_a < n) the dividend is positive, so Int emod agrees with
the JavaScript BigInt remainder. -/
def extractSecret (s_c s_a : ℤ) : ℤ := (s_c - s_a + n) % n

/-- Ambient caller-visible state read by adaptor generation: the payer
secret key bytes k_p, the x-only public key P_p (as its lifted point),
the adaptor point T and the message digest of the proof secret. -/
structure PayerEnv where
  k_p : ℕ
  P_p : Pt
  T : Pt
  msg : ℕ
deriving DecidableEq

/-- Adaptor generation with the ambient environment threaded
explicitly, translating src/index.ts lines 128-181 statement by
statement: the body assigns only the loop locals r_p, R_p, R_a and
let-bound derived scalars (r, c, k, s_a); it contains no assignment to
k_p, P_p, T or the message digest, so the environment component of the
result is the unchanged input environment. -/
def generateAdaptorEnv (o : Pt → Bool) (H : Pt → Pt → ℕ → ℕ) (env : PayerEnv)
    (draws : ℕ → ℕ) (fuel : ℕ) : PayerEnv × Option AdaptorRec :=
  (env, generateAdaptor o H env.k_p env.T env.msg draws fuel)

/-- Big-endian value of a byte sequence, the BigInt("0x" + hex) reading
used throughout the source. -/
def bytesToNat (bs : List ℕ) : ℕ := bs.foldl (fun a b => a * 256 + b) 0

/-- Big-endian encoding into k bytes, modelling
value.toString(16).padStart(2*k, "0") followed by hex decoding (exact
for values below 256^k). -/
def natToBytesBE : ℕ → ℕ → List ℕ
  | 0, _ => []
  | k + 1, x => natToBytesBE k (x / 256) ++ [x % 256]

/-- negateScalar, src/utils.ts lines 5-9: read the bytes as a
big-endian integer s, form (n - s) % n, and re-encode as 32 big-endian
bytes.  Nat subtraction agrees with the source's BigInt computation on
the canonical domain s < n (beyond it the source would feed a negative
BigInt remainder into hex decoding). -/
def negateScalar (bs : List ℕ) : List ℕ :=
  natToBytesBE 32 ((n - bytesToNat bs) % n)

/-- JavaScript bitwise & as used in the source's zero test: ToInt32
truncates both operands to their low 32 bits before the bitwise and.
For the ≠ 0 test this model is exact for all safe-integer operands. -/
def jsAnd (a b : ℕ) : ℕ := a % 2 ^ 32 &&& b % 2 ^ 32

/-- decomposePowersOfTwo, src/utils.ts lines 15-19: list the powers
2^0 .. 2^(floor(log2 x)) and keep those whose bit is set in x.
Math.floor(Math.log2(x)) agrees with Nat.log2 x for 1 ≤ x < 2^31
(a faithful double-precision log2 cannot cross an integer boundary at
those arguments). -/
def decomposePowersOfTwo (x : ℕ) : List ℕ :=
  (((List.range (Nat.log2 x + 1)).map fun i => 2 ^ i).filter
    fun power => jsAnd x power != 0)

/-- Cashu proof as constructed by mockProofs, src/utils.ts lines 21-37
(the fields of the @cashu/cashu-ts Proof type that the source builds). -/
structure Proof where
  amount : ℕ
  secret : String
  id : String
  C : String
deriving DecidableEq

/-- P2PK secret JSON string built by mockProofs via JSON.stringify. -/
def p2pkSecret (pubkey non : String) : String :=
  "[\"P2PK\",\x7b\"nonce\":\"" ++ non ++ "\",\"data\":\"" ++ pubkey ++ "\"\x7d]"

/-- mockProofs, src/utils.ts lines 21-37: one proof per decomposed
power-of-two amount, sharing one keyset id and carrying a fresh random
nonce and blinded value C per proof.  The per-call randomness is
modelled by oracles indexed by the amount; the amounts within one call
are pairwise distinct, so no two calls share an index. -/
def mockProofs (fullAmount : ℕ) (pubkey keysetId : String)
    (nonces Cs : ℕ → String) : List Proof :=
  (decomposePowersOfTwo fullAmount).map fun amount =>
    { amount := amount, secret := p2pkSecret pubkey (nonces amount),
      id := keysetId, C := Cs amount }

/-- areSecretsUnique, src/index.ts lines 202-203: the Set of proof
secrets has as many elements as the proof list. -/
def areSecretsUnique (ps : List Proof) : Bool :=
  (ps.map fun p => p.secret).dedup.length == ps.length

/-- totalAmount, src/index.ts lines 204-207. -/
def totalAmount (ps : List Proof) : ℕ := ps.foldl (fun sum p => sum + p.amount) 0

/-- Token-amount validation branch condition, src/index.ts line 209:
the error is reported iff the secrets are not all unique AND the total
differs from the expected payment amount. -/
def tokenAmountInvalid (ps : List Proof) (paymentAmount : ℕ) : Bool :=
  !areSecretsUnique ps && totalAmount ps != paymentAmount

/-- Constant challenge-hash oracle used by the concrete witnesses. -/
def Hc : Pt → Pt → ℕ → ℕ := fun _ _ _ => 5

/-- Adaptor record produced by generateAdaptor for k = 1, T = 5,
m = 0, constant draw 1 (the loop exits on the first attempt with
r = n - 1, R_p = -G, R_a = 4). -/
def recW : AdaptorRec := generateAdaptorCore oddParity Hc 1 0 (n - 1) (-1) 4

/-- Concrete environment used by the C8 witness. -/
def envW : PayerEnv := ⟨1, -1, 5, 0⟩

/-- Reflection law for the concrete parity oracle: negation flips the
parity of the canonical representative because n is odd. -/
theorem oddParity_reflect (P : Pt) (hP : P ≠ 0) : oddParity (-P) = !oddParity P := by
  have hv : P.val < n := ZMod.val_lt P
  have hv0 : P.val ≠ 0 := fun h => hP ((ZMod.val_eq_zero P).mp h)
  have hn : n % 2 = 1 := by decide
  unfold oddParity
  rw [ZMod.neg_val, if_neg hP]
  rcases Nat.mod_two_eq_zero_or_one P.val with h | h
  · have h2 : (n - P.val) % 2 = 1 := by omega
    simp [h, h2]
  · have h2 : (n - P.val) % 2 = 0 := by omega
    simp [h, h2]

/-- Casting a draw in [1, n) into the group gives a nonzero element. -/
theorem natCast_ne_zero_of_lt (d : ℕ) (hd1 : 1 ≤ d) (hdn : d < n) : (d : Pt) ≠ 0 := by
  rw [Ne, ZMod.natCast_zmod_eq_zero_iff_dvd]
  exact fun hdvd => absurd (Nat.le_of_dvd (by omega) hdvd) (by omega)

/-- Postcondition of a single nonce attempt: the returned R_p has even
y, the scalar/point pair is consistent, and R_a = R_p + T. -/
theorem nonceAttempt_spec (o : Pt → Bool) (T : Pt) (d : ℕ)
    (ho : ∀ P : Pt, P ≠ 0 → o (-P) = !o P) (hd1 : 1 ≤ d) (hdn : d < n) :
    o (nonceAttempt o T d).2.1 = false ∧
    ((nonceAttempt o T d).1 : Pt) * G = (nonceAttempt o T d).2.1 ∧
    (nonceAttempt o T d).2.2 = (nonceAttempt o T d).2.1 + T := by
  have hne : (d : Pt) ≠ 0 := natCast_ne_zero_of_lt d hd1 hdn
  unfold nonceAttempt
  simp only [G, mul_one]
  by_cases hcase : o (d : Pt)
  · have hflip : o (-(d : Pt)) = false := by rw [ho _ hne, hcase]; rfl
    have hcast : (((n - d) % n : ℕ) : Pt) = -(d : Pt) := by
      rw [ZMod.natCast_mod, Nat.cast_sub (le_of_lt hdn), ZMod.natCast_self, zero_sub]
    simp [hcase, hflip, hcast]
  · simp [hcase, Bool.eq_false_iff.mpr hcase]

/-- Postcondition of the nonce-generation loop on every exit: both
points have even y, the scalar/point pair is consistent, and
R_a = R_p + T. -/
theorem nonceLoop_spec (o : Pt → Bool) (T : Pt) (draws : ℕ → ℕ)
    (ho : ∀ P : Pt, P ≠ 0 → o (-P) = !o P)
    (hdraws : ∀ i, 1 ≤ draws i ∧ draws i < n) :
    ∀ fuel i r Rp Ra, nonceLoop o T draws i fuel = some (r, Rp, Ra) →
      o Rp = false ∧ o Ra = false ∧ (r : Pt) * G = Rp ∧ Ra = Rp + T := by
  intro fuel
  induction fuel with
  | zero => intro i r Rp Ra h; simp [nonceLoop] at h
  | succ fuel ih =>
    intro i r Rp Ra h
    unfold nonceLoop at h
    by_cases hexit : o (nonceAttempt o T (draws i)).2.2
    · simp only [hexit, if_true] at h
      exact ih (i + 1) r Rp Ra h
    · simp only [hexit, if_false, Bool.false_eq_true] at h
      have heq : nonceAttempt o T (draws i) = (r, Rp, Ra) := Option.some.inj h
      obtain ⟨hA, hB, hC⟩ :=
        nonceAttempt_spec o T (draws i) ho (hdraws i).1 (hdraws i).2
      rw [heq] at hA hB hC hexit
      exact ⟨hA, Bool.eq_false_iff.mpr hexit, hB, hC⟩

/-- C5: on every exit of the adaptor nonce-generation loop the three
postconditions hold simultaneously: the payer nonce point R_p has even
y, the blinded nonce point R_a = R_p + T has even y, and the
scalar/point pair is still consistent, R_p = r_p * G — the in-loop
negateScalar on the scalar corresponds exactly to the point negation
of R_p.  The parity oracle o ranges over all functions satisfying the
reflection law of the secp256k1 parity bit; draws are the values of
schnorr.utils.randomPrivateKey, i.e. scalars in [1, n). -/
theorem nonceLoop_postconditions (o : Pt → Bool) (T : Pt) (draws : ℕ → ℕ)
    (fuel i : ℕ) (r : ℕ) (Rp Ra : Pt)
    (ho : ∀ P : Pt, P ≠ 0 → o (-P) = !o P)
    (hdraws : ∀ j, 1 ≤ draws j ∧ draws j < n)
    (hexit : nonceLoop o T draws i fuel = some (r, Rp, Ra)) :
    o Rp = false ∧ o Ra = false ∧ (r : Pt) * G = Rp ∧ Ra = Rp + T :=
  nonceLoop_spec o T draws ho hdraws fuel i r Rp Ra hexit

/-- Witness for C5 at T = 5, constant draw 1: the loop exits on the
first attempt with r = n - 1, R_p = -G, R_a = 4, and the
postconditions evaluate as claimed. -/
theorem nonceLoop_postconditions_witness :
    oddParity (-1 : Pt) = false ∧ oddParity (4 : Pt) = false ∧
    ((n - 1 : ℕ) : Pt) * G = (-1 : Pt) ∧ (4 : Pt) = (-1 : Pt) + 5 :=
  nonceLoop_postconditions oddParity 5 (fun _ => 1) 1 0 (n - 1) (-1) 4
    oddParity_reflect (fun _ => ⟨Nat.le_refl 1, (by decide : (1 : ℕ) < n)⟩) (by decide)

/-- C1: an adaptor record produced by the generation loop passes the
verifier's check: s_a * G equals lift_x(R_p_x) + c * lift_x(P) or
lift_x(R_p_x) + (n - c) * lift_x(P), where c is the challenge over
(R_a_x, P, m) — for every spender secret k in [1, n), every adaptor
point T, every message digest m, and either y-parity of the true
public point of k (the parity oracle o ranges over all functions
satisfying the reflection law, so both parities of k * G are covered).
The bound hh keeps the challenge inside the domain that the verifier's
unreduced point multiplication accepts. -/
theorem generateAdaptor_verifies
    (o : Pt → Bool) (H : Pt → Pt → ℕ → ℕ) (k : ℕ) (T : Pt) (m : ℕ)
    (draws : ℕ → ℕ) (fuel : ℕ) (rec : AdaptorRec)
    (ho : ∀ P : Pt, P ≠ 0 → o (-P) = !o P)
    (hdraws : ∀ j, 1 ≤ draws j ∧ draws j < n)
    (hk1 : 1 ≤ k) (hkn : k < n)
    (hgen : generateAdaptor o H k T m draws fuel = some rec)
    (hh : H rec.R_a (liftEven o ((k : Pt) * G)) m < n) :
    verifyAdaptorRec o H rec (liftEven o ((k : Pt) * G)) m = true := by
  unfold generateAdaptor at hgen
  rw [Option.map_eq_some'] at hgen
  obtain ⟨⟨r, Rp, Ra⟩, hloop, hcore⟩ := hgen
  obtain ⟨hRp, hRa, hrg, hsum⟩ := nonceLoop_spec o T draws ho hdraws fuel 0 r Rp Ra hloop
  have hRpLift : liftEven o Rp = Rp := by simp [liftEven, hRp]
  subst hcore
  simp only [generateAdaptorCore, verifyAdaptorRec, verifierChallenge, hRpLift] at hh ⊢
  rw [Bool.or_eq_true, beq_iff_eq, beq_iff_eq]
  left
  rw [← hrg]
  set h : ℕ := H Ra (liftEven o ((k : Pt) * G)) m with hhdef
  rcases Bool.eq_false_or_eq_true (o ((k : Pt) * G)) with hpar | hpar
  · simp only [liftEven, hpar, eq_self_iff_true, if_true]
    rw [Nat.mod_eq_of_lt hh, Nat.cast_sub (le_of_lt hh), ZMod.natCast_self, zero_sub]
    simp only [G, mul_one]
    ring
  · simp only [liftEven, hpar, Bool.false_eq_true, if_false]
    rw [ZMod.natCast_mod]
    simp only [G, mul_one]

/-- Witness for C1 at k = 1, T = 5, m = 0, constant draw 1, constant
challenge hash 5: the generated record passes verification. -/
theorem generateAdaptor_verifies_witness :
    verifyAdaptorRec oddParity Hc recW (liftEven oddParity (((1 : ℕ) : Pt) * G)) 0 = true :=
  generateAdaptor_verifies oddParity Hc 1 5 0 (fun _ => 1) 1 recW
    oddParity_reflect (fun _ => ⟨Nat.le_refl 1, (by decide : (1 : ℕ) < n)⟩)
    (Nat.le_refl 1) (by decide) (by decide) (by decide)

/-- C2: completion followed by extraction returns exactly the hidden
scalar: with s_c = (s_a + t) mod n as computed by the Signer (src/index.ts
line 270), the Payer's extraction (s_c - s_a + n) mod n (line 338)
recovers t, for every adaptor scalar s_a in [0, n) and hidden scalar t
in [0, n).  Neither computation reads the y-parity of the payer public
key, so the round-trip is parity-independent. -/
theorem extractSecret_completeScalar (s_a t : ℤ)
    (hs0 : 0 ≤ s_a) (hsn : s_a < n) (ht0 : 0 ≤ t) (htn : t < n) :
    extractSecret (completeScalar s_a t) s_a = t := by
  unfold extractSecret completeScalar
  have hcast : ((n : ℕ) : ℤ) =
      (0xFFFFFFFFFFFFFFFFFFFFFFFFFFFFFFFEBAAEDCE6AF48A03BBFD25E8CD0364141 : ℤ) := by
    norm_num [n]
  rw [hcast]
  rw [hcast] at hsn htn
  omega

/-- Witness for C2 at s_a = 5, t = 7: extraction recovers 7 exactly. -/
theorem extractSecret_completeScalar_witness :
    extractSecret (completeScalar 5 7) 5 = 7 :=
  extractSecret_completeScalar 5 7 (by decide) (by decide) (by decide) (by decide)

/-- C3 (code bug): the Signer's Step 4 pipeline, as written, completes
and submits a signature for a record that failed adaptor verification.
The record below fails the verification check (both parity branches),
the batch flag is false, and the pipeline nevertheless outputs the
completed scalar s_c = s_a + t (here 1 + 7 = 8) for it: the source
only prints an error message on verification failure and the
completion loop runs unconditionally. -/
theorem signerStep_completes_rejected_record :
    verifyAdaptorRec oddParity Hc { s_a := 1, R_p := 4, R_a := 4 } 4 0 = false ∧
    areAdaptorsValid oddParity Hc [({ s_a := 1, R_p := 4, R_a := 4 }, 0)] 4 = false ∧
    (signerStep oddParity Hc [({ s_a := 1, R_p := 4, R_a := 4 }, 0)] 4 7).2 =
      [(4, 8)] := by
  decide

/-- C4 counterexample: the verifier stores its challenge unreduced
(BigInt of the tagged hash, src/index.ts lines 215-231) while the
generator reduces it mod n (line 159).  At a tagged-hash output of
2^256 - 1 — a possible 32-byte digest value — the verifier's challenge
scalar differs from the generator's and does not lie in [0, n). -/
theorem verifierChallenge_ne_generatorChallenge :
    verifierChallenge (fun _ _ _ => 2 ^ 256 - 1) 0 0 0 ≠
      generatorChallenge (fun _ _ _ => 2 ^ 256 - 1) 0 0 0 ∧
    ¬ verifierChallenge (fun _ _ _ => 2 ^ 256 - 1) 0 0 0 < n := by
  decide

/-- C4 amended: the generator's challenge is the tagged hash of
(R_a_x, P_p, m) reduced mod n, and whenever the 32-byte tagged-hash
value is below n — which fails only with probability about 2^-128 over
SHA-256 outputs — the verifier's unreduced challenge equals the
generator's reduced one and both lie in [0, n). -/
theorem challenge_agreement (H : Pt → Pt → ℕ → ℕ) (Ra P : Pt) (m : ℕ)
    (hh : H Ra P m < n) :
    verifierChallenge H Ra P m = generatorChallenge H Ra P m ∧
    generatorChallenge H Ra P m < n ∧ verifierChallenge H Ra P m < n := by
  unfold verifierChallenge generatorChallenge
  rw [Nat.mod_eq_of_lt hh]
  exact ⟨rfl, hh, hh⟩

/-- Witness for the amended C4 at the constant hash value 5. -/
theorem challenge_agreement_witness :
    verifierChallenge Hc 0 0 0 = generatorChallenge Hc 0 0 0 ∧
    generatorChallenge Hc 0 0 0 < n ∧ verifierChallenge Hc 0 0 0 < n :=
  challenge_agreement Hc 0 0 0 (by decide)

set_option maxRecDepth 4000 in
/-- C6 counterexample: with the degenerate random source that always
draws 1 and T = 4 (every attempt then yields R_a = 3, which has odd
parity), the nonce loop is still running after 256 attempts — far past
the claimed ~64-attempt cap — and no abort has occurred: the source
loop has no failure path at all. -/
theorem nonceLoop_no_cap_at_256 :
    nonceLoop oddParity 4 (fun _ => 1) 0 256 = none := by
  decide

/-- C6 amended: the nonce-generation retry loop has no cap: on a
degenerate random source whose every attempt produces an odd-y
R_a = R_p + T it keeps iterating for any number of attempts and never
aborts (spec §9 records the cap as recommended hardening, not observed
source behaviour). -/
theorem nonceLoop_unbounded :
    ∀ fuel i, nonceLoop oddParity 4 (fun _ => 1) i fuel = none := by
  intro fuel
  induction fuel with
  | zero => intro i; rfl
  | succ fuel ih =>
    intro i
    unfold nonceLoop
    rw [if_pos (show oddParity (nonceAttempt oddParity 4 1).2.2 = true from by decide)]
    exact ih (i + 1)

/-- Witness for the amended C6 at 64 attempts starting from draw
index 7: the loop is still running, with no abort. -/
theorem nonceLoop_unbounded_witness :
    nonceLoop oddParity 4 (fun _ => 1) 7 64 = none :=
  nonceLoop_unbounded 64 7

/-- Helper: the Set-size uniqueness check of the source coincides with
Nodup of the secret list. -/
theorem areSecretsUnique_iff_nodup (ps : List Proof) :
    areSecretsUnique ps = true ↔ (ps.map fun p => p.secret).Nodup := by
  unfold areSecretsUnique
  rw [beq_iff_eq]
  constructor
  · intro h
    have heq : (ps.map fun p => p.secret).dedup = ps.map fun p => p.secret :=
      (List.dedup_sublist _).eq_of_length (by rw [h, List.length_map])
    exact heq ▸ List.nodup_dedup _
  · intro h
    rw [List.dedup_eq_self.mpr h, List.length_map]

/-- C7: the Signer's token-amount error branch is taken iff the batch
secrets are NOT all unique AND the total amount differs from the
expected payment amount — the source combines the two conditions with
a logical AND (src/index.ts line 209); in particular a batch with
all-unique secrets whose total differs from the expected amount is not
reported invalid. -/
theorem tokenAmountInvalid_iff (ps : List Proof) (a : ℕ) :
    (tokenAmountInvalid ps a = true ↔
      ¬ (ps.map fun p => p.secret).Nodup ∧ totalAmount ps ≠ a) ∧
    ((ps.map fun p => p.secret).Nodup → tokenAmountInvalid ps a = false) := by
  have hmain : tokenAmountInvalid ps a = true ↔
      ¬ (ps.map fun p => p.secret).Nodup ∧ totalAmount ps ≠ a := by
    unfold tokenAmountInvalid
    rw [Bool.and_eq_true, Bool.not_eq_true', bne_iff_ne]
    rw [← Bool.not_eq_true, areSecretsUnique_iff_nodup]
  refine ⟨hmain, fun h => ?_⟩
  have : ¬ tokenAmountInvalid ps a = true := fun habs => ((hmain.mp habs).1 h).elim
  exact Bool.not_eq_true _ ▸ this

/-- Witness for C7: a batch of two proofs with the same secret and a
wrong total is reported invalid, matching the conjunction; the
implication instance is also produced. -/
theorem tokenAmountInvalid_iff_witness :
    (tokenAmountInvalid [⟨1, "s", "i", "c"⟩, ⟨2, "s", "i", "c"⟩] 5 = true ↔
      ¬ (([⟨1, "s", "i", "c"⟩, ⟨2, "s", "i", "c"⟩] : List Proof).map
          fun p => p.secret).Nodup ∧
        totalAmount [⟨1, "s", "i", "c"⟩, ⟨2, "s", "i", "c"⟩] ≠ 5) ∧
    ((([⟨1, "s", "i", "c"⟩, ⟨2, "s", "i", "c"⟩] : List Proof).map
        fun p => p.secret).Nodup →
      tokenAmountInvalid [⟨1, "s", "i", "c"⟩, ⟨2, "s", "i", "c"⟩] 5 = false) :=
  tokenAmountInvalid_iff [⟨1, "s", "i", "c"⟩, ⟨2, "s", "i", "c"⟩] 5

/-- C8: adaptor generation never mutates the caller-visible key pair
or the other ambient inputs: the environment component returned by the
statement-for-statement translation is the input environment
unchanged (k_p, P_p, T and the message digest byte for byte), and when
a record is produced its scalar is computed from a derived ephemeral
challenge — the negated challenge n - c exactly when the true public
point of k_p has odd y — reading but not altering env.k_p. -/
theorem generateAdaptorEnv_frame (o : Pt → Bool) (H : Pt → Pt → ℕ → ℕ)
    (env : PayerEnv) (draws : ℕ → ℕ) (fuel : ℕ) (rec : AdaptorRec)
    (hgen : (generateAdaptorEnv o H env draws fuel).2 = some rec) :
    (generateAdaptorEnv o H env draws fuel).1 = env ∧
    ∃ r Rp Ra, nonceLoop o env.T draws 0 fuel = some (r, Rp, Ra) ∧
      rec.R_p = Rp ∧ rec.R_a = Ra ∧
      rec.s_a = (r : ZMod n) +
        ((if o ((env.k_p : Pt) * G)
          then n - H Ra (liftEven o ((env.k_p : Pt) * G)) env.msg % n
          else H Ra (liftEven o ((env.k_p : Pt) * G)) env.msg % n : ℕ) : ZMod n) *
        (env.k_p : ZMod n) := by
  refine ⟨rfl, ?_⟩
  simp only [generateAdaptorEnv, generateAdaptor, Option.map_eq_some'] at hgen
  obtain ⟨⟨r, Rp, Ra⟩, hloop, hcore⟩ := hgen
  exact ⟨r, Rp, Ra, hloop, by rw [← hcore]; rfl, by rw [← hcore]; rfl,
    by rw [← hcore]; rfl⟩

/-- Witness for C8 at envW (k_p = 1, T = 5, m = 0), constant draw 1:
the environment comes back unchanged and the produced record's scalar
is the ephemeral-challenge combination of the untouched inputs. -/
theorem generateAdaptorEnv_frame_witness :
    (generateAdaptorEnv oddParity Hc envW (fun _ => 1) 1).1 = envW ∧
    ∃ r Rp Ra, nonceLoop oddParity envW.T (fun _ => 1) 0 1 = some (r, Rp, Ra) ∧
      recW.R_p = Rp ∧ recW.R_a = Ra ∧
      recW.s_a = (r : ZMod n) +
        ((if oddParity ((envW.k_p : Pt) * G)
          then n - Hc Ra (liftEven oddParity ((envW.k_p : Pt) * G)) envW.msg % n
          else Hc Ra (liftEven oddParity ((envW.k_p : Pt) * G)) envW.msg % n : ℕ) :
            ZMod n) *
        (envW.k_p : ZMod n) :=
  generateAdaptorEnv_frame oddParity Hc envW (fun _ => 1) 1 recW (by decide)

/-- Helper: big-endian value of a byte list with one byte appended. -/
theorem bytesToNat_append (l : List ℕ) (b : ℕ) :
    bytesToNat (l ++ [b]) = bytesToNat l * 256 + b := by
  unfold bytesToNat
  rw [List.foldl_append]
  rfl

/-- Helper: the fixed-width encoder always produces exactly k bytes. -/
theorem length_natToBytesBE (k : ℕ) : ∀ x, (natToBytesBE k x).length = k := by
  induction k with
  | zero => intro x; rfl
  | succ k ih => intro x; simp [natToBytesBE, ih]

/-- Helper: round trip of the fixed-width big-endian encoding. -/
theorem bytesToNat_natToBytesBE (k : ℕ) :
    ∀ x, bytesToNat (natToBytesBE k x) = x % 256 ^ k := by
  induction k with
  | zero => intro x; simp [natToBytesBE, bytesToNat, Nat.mod_one]
  | succ k ih =>
    intro x
    rw [natToBytesBE, bytesToNat_append, ih,
      show (256 : ℕ) ^ (k + 1) = 256 * 256 ^ k by ring, Nat.mod_mul]
    ring

/-- Helper: double modular negation is the identity on values below n. -/
theorem negate_negate_val (v : ℕ) (hv : v < n) : (n - (n - v) % n) % n = v := by
  rcases Nat.eq_zero_or_pos v with h0 | hpos
  · subst h0
    simp [Nat.sub_zero, Nat.mod_self]
  · have h1 : (n - v) % n = n - v := Nat.mod_eq_of_lt (by omega)
    rw [h1, show n - (n - v) = v by omega, Nat.mod_eq_of_lt hv]

/-- C9: negateScalar is an involution on canonical scalars: for a
32-byte big-endian scalar with value below n, applying it twice
returns the original value, its output decodes to a value in [0, n)
that is the mod-n additive inverse of the input, the output is always
exactly 32 bytes, and the zero scalar is a fixed point (negateScalar
yields 0, not n). -/
theorem negateScalar_involution (bs : List ℕ) (hlen : bs.length = 32)
    (hval : bytesToNat bs < n) :
    bytesToNat (negateScalar (negateScalar bs)) = bytesToNat bs ∧
    bytesToNat (negateScalar bs) < n ∧
    (bytesToNat bs + bytesToNat (negateScalar bs)) % n = 0 ∧
    (negateScalar bs).length = 32 ∧
    negateScalar (List.replicate 32 0) = List.replicate 32 0 := by
  have hnpos : 0 < n := by decide
  have h256 : n < 256 ^ 32 := by decide
  have hout : ∀ l : List ℕ, bytesToNat (negateScalar l) = (n - bytesToNat l) % n := by
    intro l
    unfold negateScalar
    rw [bytesToNat_natToBytesBE]
    exact Nat.mod_eq_of_lt (lt_trans (Nat.mod_lt _ hnpos) h256)
  refine ⟨?_, ?_, ?_, length_natToBytesBE 32 _, ?_⟩
  · rw [hout, hout]
    exact negate_negate_val _ hval
  · rw [hout]
    exact Nat.mod_lt _ hnpos
  · rw [hout]
    rcases Nat.eq_zero_or_pos (bytesToNat bs) with h0 | hpos
    · rw [h0]
      simp [Nat.mod_self]
    · rw [Nat.mod_eq_of_lt (show n - bytesToNat bs < n by omega),
        show bytesToNat bs + (n - bytesToNat bs) = n by omega, Nat.mod_self]
  · decide

/-- Witness for C9 at the 32-byte encoding of 5. -/
theorem negateScalar_involution_witness :
    bytesToNat (negateScalar (negateScalar (natToBytesBE 32 5))) =
      bytesToNat (natToBytesBE 32 5) ∧
    bytesToNat (negateScalar (natToBytesBE 32 5)) < n ∧
    (bytesToNat (natToBytesBE 32 5) +
      bytesToNat (negateScalar (natToBytesBE 32 5))) % n = 0 ∧
    (negateScalar (natToBytesBE 32 5)).length = 32 ∧
    negateScalar (List.replicate 32 0) = List.replicate 32 0 :=
  negateScalar_involution (natToBytesBE 32 5) (by decide) (by decide)

/-- Helper: the 32-bit truncation inside jsAnd vanishes on the
decomposition's operand ranges. -/
theorem jsAnd_two_pow (x i : ℕ) (hx : x < 2 ^ 31) (hi : i ≤ 30) :
    jsAnd x (2 ^ i) = x &&& 2 ^ i := by
  unfold jsAnd
  rw [Nat.mod_eq_of_lt (lt_trans hx (by norm_num)),
    Nat.mod_eq_of_lt (Nat.pow_lt_pow_right (by norm_num) (by omega))]

/-- Helper: the filtered power list sums to the low bits of x. -/
theorem decompose_sum_aux (x : ℕ) (hx : x < 2 ^ 31) :
    ∀ m, m ≤ 31 → ((((List.range m).map fun i => 2 ^ i).filter
      fun power => jsAnd x power != 0)).sum = x % 2 ^ m := by
  intro m
  induction m with
  | zero => intro _; simp [Nat.mod_one]
  | succ m ih =>
    intro hm
    rw [List.range_succ, List.map_append, List.filter_append, List.sum_append,
      ih (by omega)]
    simp only [List.map_cons, List.map_nil]
    have hjs : jsAnd x (2 ^ m) = x &&& 2 ^ m := jsAnd_two_pow x m hx (by omega)
    have hsplit : x % 2 ^ (m + 1) = x % 2 ^ m + 2 ^ m * (x / 2 ^ m % 2) := by
      rw [show (2 : ℕ) ^ (m + 1) = 2 ^ m * 2 by ring, Nat.mod_mul]
    cases htb : x.testBit m with
    | false =>
      have hzero : x &&& 2 ^ m = 0 := by rw [Nat.and_two_pow, htb]; simp
      have hdiv : ¬ x / 2 ^ m % 2 = 1 := by
        rw [Nat.testBit_to_div_mod] at htb
        exact of_decide_eq_false htb
      have hdiv0 : x / 2 ^ m % 2 = 0 := by omega
      rw [hsplit, hdiv0,
        show (([2 ^ m] : List ℕ).filter fun power => jsAnd x power != 0) = []
          from by simp [List.filter, hjs, hzero]]
      simp
    | true =>
      have hone : x &&& 2 ^ m = 2 ^ m := by rw [Nat.and_two_pow, htb]; simp
      have hdiv : x / 2 ^ m % 2 = 1 := by
        rw [Nat.testBit_to_div_mod] at htb
        exact of_decide_eq_true htb
      rw [hsplit, hdiv,
        show (([2 ^ m] : List ℕ).filter fun power => jsAnd x power != 0) = [2 ^ m]
          from by
            have hpne : (2 : ℕ) ^ m ≠ 0 := Nat.pos_iff_ne_zero.mp (Nat.two_pow_pos m)
            have hbne : (2 ^ m != 0) = true := bne_iff_ne.mpr hpne
            simp [List.filter, hjs, hone, hbne]]
      simp [Nat.mul_one]

/-- C10: for 1 ≤ fullAmount < 2^31, mockProofs returns one proof per
set bit of fullAmount (amounts are exactly the powers of two at set
bits, pairwise distinct) and the amounts sum to fullAmount exactly
(the 32-bit bitwise AND used in the decomposition is the identity on
this range). -/
theorem mockProofs_decomposition (x : ℕ) (pubkey keysetId : String)
    (nonces Cs : ℕ → String) (hx1 : 1 ≤ x) (hx : x < 2 ^ 31) :
    ((mockProofs x pubkey keysetId nonces Cs).map fun p => p.amount) =
      decomposePowersOfTwo x ∧
    (decomposePowersOfTwo x).sum = x ∧
    (∀ a, a ∈ decomposePowersOfTwo x ↔ ∃ i, a = 2 ^ i ∧ x.testBit i = true) ∧
    (decomposePowersOfTwo x).Nodup := by
  have hx0 : x ≠ 0 := by omega
  have hlog : Nat.log2 x < 31 := by rw [Nat.log2_lt hx0]; exact hx
  refine ⟨?_, ?_, ?_, ?_⟩
  · unfold mockProofs
    rw [List.map_map]
    exact List.map_id' _
  · unfold decomposePowersOfTwo
    rw [decompose_sum_aux x hx (Nat.log2 x + 1) (by omega)]
    exact Nat.mod_eq_of_lt ((Nat.log2_lt hx0).mp (by omega))
  · intro a
    unfold decomposePowersOfTwo
    rw [List.mem_filter]
    constructor
    · rintro ⟨hmem, hcond⟩
      rw [List.mem_map] at hmem
      obtain ⟨i, hir, rfl⟩ := hmem
      rw [List.mem_range] at hir
      refine ⟨i, rfl, ?_⟩
      rw [jsAnd_two_pow x i hx (by omega), Nat.and_two_pow] at hcond
      cases htb : x.testBit i with
      | false => rw [htb] at hcond; simp at hcond
      | true => rfl
    · rintro ⟨i, rfl, htb⟩
      have hge : 2 ^ i ≤ x := Nat.testBit_implies_ge htb
      have hi : i < Nat.log2 x + 1 := by
        have := (Nat.le_log2 hx0).mpr hge
        omega
      refine ⟨List.mem_map.mpr ⟨i, List.mem_range.mpr hi, rfl⟩, ?_⟩
      rw [jsAnd_two_pow x i hx (by omega), Nat.and_two_pow, htb]
      simp
  · unfold decomposePowersOfTwo
    exact List.Nodup.filter _
      (List.Nodup.map (Nat.pow_right_injective (Nat.le_refl 2)) (List.nodup_range _))

/-- Witness for C10 at fullAmount = 5: the amounts are [1, 4], they
sum to 5, membership matches the set bits of 5, and they are distinct. -/
theorem mockProofs_decomposition_witness :
    ((mockProofs 5 "pk" "kid" (fun _ => "n") fun _ => "c").map fun p => p.amount) =
      decomposePowersOfTwo 5 ∧
    (decomposePowersOfTwo 5).sum = 5 ∧
    (∀ a, a ∈ decomposePowersOfTwo 5 ↔ ∃ i, a = 2 ^ i ∧ Nat.testBit 5 i = true) ∧
    (decomposePowersOfTwo 5).Nodup :=
  mockProofs_decomposition 5 "pk" "kid" (fun _ => "n") (fun _ => "c")
    (by decide) (by decide)
